import Mathlib

/-!
Verification of the reconciliation core of `directus-compare`.

JavaScript strings are modelled as `List Char` (`JSString`); nullable values
as `Option`; records and diffs as structures mirroring the
`directus_permissions` schema.  All definitions are executable.
-/

set_option maxRecDepth 4000

/-- JavaScript strings, modelled as their character lists. -/
abbrev JSString := List Char

/-- Character list of a Lean string literal (used to write concrete examples). -/
def js (s : String) : JSString := s.data

/-- Characters removed by `String.prototype.trim` (the common whitespace set). -/
def isJsSpace (c : Char) : Bool := c = ' ' || c = '\t' || c = '\n' || c = '\r'

/-- Remove the longest whitespace suffix of a character list. -/
def rtrimChars : JSString → JSString
  | [] => []
  | a :: as =>
    match rtrimChars as with
    | [] => if isJsSpace a then [] else [a]
    | b :: bs => a :: b :: bs

/-- JS `String.prototype.trim`: drop whitespace from both ends. -/
def trimChars (l : JSString) : JSString := rtrimChars (l.dropWhile isJsSpace)

/-- JS `String.prototype.split` with a single-character separator: always
returns a non-empty list of (possibly empty) chunks. -/
def splitOnChar (c : Char) : JSString → List JSString
  | [] => [[]]
  | a :: as =>
    match splitOnChar c as with
    | [] => [[]]
    | h :: t => if a = c then [] :: h :: t else (a :: h) :: t

/-- JS `Array.prototype.join` with separator `sep`. -/
def joinSep (sep : JSString) : List JSString → JSString
  | [] => []
  | [x] => x
  | x :: y :: t => x ++ sep ++ joinSep sep (y :: t)

/-- Lexicographic strict comparison of character lists, as JS string `<`
(by code unit). -/
def strLtB : JSString → JSString → Bool
  | [], [] => false
  | [], _ :: _ => true
  | _ :: _, [] => false
  | a :: as, b :: bs => if a < b then true else if b < a then false else strLtB as bs

/-- Lexicographic non-strict comparison of character lists. -/
def strLeB : JSString → JSString → Bool
  | [], _ => true
  | _ :: _, [] => false
  | a :: as, b :: bs => if a < b then true else if b < a then false else strLeB as bs

/-- The sorting relation used for JS default `Array.prototype.sort` on strings. -/
def strLe (s t : JSString) : Prop := strLeB s t = true

instance : DecidableRel strLe := fun s t => inferInstanceAs (Decidable (strLeB s t = true))

/-- The `split(',').map(trim).filter(length > 0)` chain shared by both
`normalizeFields` functions in the source. -/
def fieldTokens (l : JSString) : List JSString :=
  ((splitOnChar ',' l).map trimChars).filter (fun t => t.length > 0)

/-- `normalizeFields` of src/components/DiffViewer.tsx (src/unnamed/part_000,
lines 12–20): falsy input (null or empty) is returned unchanged, otherwise
split on comma, trim, drop empties, sort, and join with `","`. -/
def DiffViewer.normalizeFields (fieldsString : Option JSString) : Option JSString :=
  match fieldsString with
  | none => none
  | some s =>
    if s = [] then some s
    else some (joinSep [','] (List.insertionSort strLe (fieldTokens s)))

/-- `normalizeFields` of src/components/PermissionsList.tsx (lines 32–40):
identical chain but joined with `", "` for display. -/
def PermissionsList.normalizeFields (fieldsString : Option JSString) : Option JSString :=
  match fieldsString with
  | none => none
  | some s =>
    if s = [] then some s
    else some (joinSep [',', ' '] (List.insertionSort strLe (fieldTokens s)))

example : DiffViewer.normalizeFields (some (js "body,title")) =
    DiffViewer.normalizeFields (some (js "title, body")) := by decide

example : PermissionsList.normalizeFields (some (js " b ,a")) = some (js "a, b") := by decide

theorem strLtB_irrefl (s : JSString) : strLtB s s = false := by
  induction s with
  | nil => rfl
  | cons a as ih => simp [strLtB, lt_irrefl, ih]

theorem strLtB_trans : ∀ {a b c : JSString},
    strLtB a b = true → strLtB b c = true → strLtB a c = true
  | [], [], _, h1, _ => by simp [strLtB] at h1
  | [], _ :: _, [], _, h2 => by simp [strLtB] at h2
  | [], _ :: _, _ :: _, _, _ => rfl
  | _ :: _, [], _, h1, _ => by simp [strLtB] at h1
  | _ :: _, _ :: _, [], _, h2 => by simp [strLtB] at h2
  | x :: xs, y :: ys, z :: zs, h1, h2 => by
    simp only [strLtB] at h1 h2 ⊢
    by_cases hxy : x < y
    · by_cases hyz : y < z
      · simp [lt_trans hxy hyz]
      · by_cases hzy : z < y
        · simp [hyz, hzy] at h2
        · have hyzeq : y = z := le_antisymm (not_lt.mp hzy) (not_lt.mp hyz)
          subst hyzeq
          simp [hxy]
    · by_cases hyx : y < x
      · simp [hxy, hyx] at h1
      · have hxyeq : x = y := le_antisymm (not_lt.mp hyx) (not_lt.mp hxy)
        subst hxyeq
        simp only [if_neg hxy, if_neg hyx] at h1
        by_cases hyz : x < z
        · simp [hyz]
        · by_cases hzy : z < x
          · simp [hyz, hzy] at h2
          · have hyzeq : x = z := le_antisymm (not_lt.mp hzy) (not_lt.mp hyz)
            subst hyzeq
            simp only [if_neg hyz, if_neg hzy] at h2 ⊢
            exact strLtB_trans h1 h2

theorem strLtB_asymm {a b : JSString} (h1 : strLtB a b = true) (h2 : strLtB b a = true) :
    False := by
  have := strLtB_trans h1 h2
  rw [strLtB_irrefl] at this
  exact Bool.false_ne_true this

theorem strLtB_connex : ∀ {a b : JSString}, a ≠ b →
    strLtB a b = true ∨ strLtB b a = true
  | [], [], h => absurd rfl h
  | [], _ :: _, _ => Or.inl rfl
  | _ :: _, [], _ => Or.inr rfl
  | x :: xs, y :: ys, h => by
    rcases lt_trichotomy x y with hlt | heq | hgt
    · exact Or.inl (by simp [strLtB, hlt])
    · subst heq
      have hne : xs ≠ ys := fun e => h (by rw [e])
      rcases strLtB_connex hne with h1 | h1
      · exact Or.inl (by simp [strLtB, lt_irrefl, h1])
      · exact Or.inr (by simp [strLtB, lt_irrefl, h1])
    · exact Or.inr (by simp [strLtB, hgt])

theorem strLeB_iff : ∀ {a b : JSString}, strLeB a b = true ↔ (strLtB a b = true ∨ a = b)
  | [], [] => by simp [strLeB, strLtB]
  | [], _ :: _ => by simp [strLeB, strLtB]
  | _ :: _, [] => by simp [strLeB, strLtB]
  | x :: xs, y :: ys => by
    simp only [strLeB, strLtB]
    by_cases hxy : x < y
    · simp [hxy]
    · by_cases hyx : y < x
      · have : x ≠ y := ne_of_gt hyx
        simp [hxy, hyx, this]
      · have hxyeq : x = y := le_antisymm (not_lt.mp hyx) (not_lt.mp hxy)
        subst hxyeq
        simp [hxy, strLeB_iff (a := xs) (b := ys)]

theorem strLeB_total (a b : JSString) : strLeB a b = true ∨ strLeB b a = true := by
  by_cases h : a = b
  · exact Or.inl (strLeB_iff.mpr (Or.inr h))
  · rcases strLtB_connex h with h1 | h1
    · exact Or.inl (strLeB_iff.mpr (Or.inl h1))
    · exact Or.inr (strLeB_iff.mpr (Or.inl h1))

theorem strLeB_trans {a b c : JSString} (h1 : strLeB a b = true) (h2 : strLeB b c = true) :
    strLeB a c = true := by
  rcases strLeB_iff.mp h1 with h1 | rfl
  · rcases strLeB_iff.mp h2 with h2 | rfl
    · exact strLeB_iff.mpr (Or.inl (strLtB_trans h1 h2))
    · exact strLeB_iff.mpr (Or.inl h1)
  · exact h2

theorem strLeB_antisymm {a b : JSString} (h1 : strLeB a b = true) (h2 : strLeB b a = true) :
    a = b := by
  rcases strLeB_iff.mp h1 with h1 | rfl
  · rcases strLeB_iff.mp h2 with h2 | rfl
    · exact absurd (strLtB_trans h1 h2) (by simp [strLtB_irrefl])
    · rfl
  · rfl

instance : IsTotal JSString strLe := ⟨strLeB_total⟩

instance : IsTrans JSString strLe := ⟨fun _ _ _ => strLeB_trans⟩

instance : IsAntisymm JSString strLe := ⟨fun _ _ => strLeB_antisymm⟩

theorem dropWhile_idem (p : Char → Bool) (l : JSString) :
    (l.dropWhile p).dropWhile p = l.dropWhile p := by
  induction l with
  | nil => rfl
  | cons a as ih => by_cases h : p a <;> simp [List.dropWhile_cons, h, ih]

theorem rtrimChars_cons_cons (a : Char) {as b bs} (h : rtrimChars as = b :: bs) :
    rtrimChars (a :: as) = a :: b :: bs := by
  simp only [rtrimChars]
  rw [h]

theorem rtrimChars_idem : ∀ l : JSString, rtrimChars (rtrimChars l) = rtrimChars l
  | [] => rfl
  | a :: as => by
    have ih := rtrimChars_idem as
    cases h : rtrimChars as with
    | nil =>
      by_cases hs : isJsSpace a <;> simp [rtrimChars, h, hs]
    | cons b bs =>
      rw [h] at ih
      rw [rtrimChars_cons_cons a h, rtrimChars_cons_cons a ih]

theorem dropWhile_head_not (p : Char → Bool) :
    ∀ {l : JSString} {a as}, l.dropWhile p = a :: as → p a = false := by
  intro l
  induction l with
  | nil => intro a as h; simp at h
  | cons x xs ih =>
    intro a as h
    by_cases hx : p x
    · rw [List.dropWhile_cons, if_pos hx] at h
      exact ih h
    · rw [List.dropWhile_cons, if_neg hx] at h
      cases h
      simpa using hx

theorem dropWhile_rtrimChars_cons {a : Char} (ha : isJsSpace a = false) (as : JSString) :
    (rtrimChars (a :: as)).dropWhile isJsSpace = rtrimChars (a :: as) := by
  cases h : rtrimChars as with
  | nil => simp [rtrimChars, h, ha, List.dropWhile_cons]
  | cons b bs => simp [rtrimChars, h, ha, List.dropWhile_cons]

theorem trimChars_idem (l : JSString) : trimChars (trimChars l) = trimChars l := by
  unfold trimChars
  cases h : l.dropWhile isJsSpace with
  | nil => simp [rtrimChars]
  | cons a as =>
    have ha : isJsSpace a = false := dropWhile_head_not isJsSpace h
    rw [dropWhile_rtrimChars_cons ha, rtrimChars_idem]

theorem dropWhile_append_of_all {p : Char → Bool} :
    ∀ {s : JSString}, (∀ c ∈ s, p c = true) →
      ∀ t : JSString, (s ++ t).dropWhile p = t.dropWhile p
  | [], _, _ => rfl
  | a :: as, h, t => by
    have ha : p a = true := h a (List.mem_cons_self a as)
    rw [List.cons_append, List.dropWhile_cons, if_pos ha,
      dropWhile_append_of_all (fun c hc => h c (List.mem_cons_of_mem a hc)) t]

theorem trimChars_ws_append {sep : JSString} (hsep : ∀ c ∈ sep, isJsSpace c = true)
    (t : JSString) : trimChars (sep ++ t) = trimChars t := by
  unfold trimChars
  rw [dropWhile_append_of_all hsep]

theorem mem_rtrimChars : ∀ {l : JSString} {c}, c ∈ rtrimChars l → c ∈ l
  | [], _, h => by simp [rtrimChars] at h
  | a :: as, c, h => by
    cases hr : rtrimChars as with
    | nil =>
      simp only [rtrimChars, hr] at h
      by_cases hs : isJsSpace a
      · simp [hs] at h
      · rw [if_neg (by simpa using hs)] at h
        simp at h
        simp [h]
    | cons b bs =>
      simp only [rtrimChars, hr] at h
      rcases List.mem_cons.mp h with rfl | h
      · exact List.mem_cons_self _ _
      · exact List.mem_cons_of_mem a (mem_rtrimChars (hr ▸ h))

theorem mem_trimChars {l : JSString} {c : Char} (h : c ∈ trimChars l) : c ∈ l :=
  (List.dropWhile_sublist _).subset (mem_rtrimChars h)

theorem splitOnChar_ne_nil (c : Char) : ∀ s : JSString, splitOnChar c s ≠ []
  | [] => by simp [splitOnChar]
  | a :: as => by
    cases h : splitOnChar c as with
    | nil => exact absurd h (splitOnChar_ne_nil c as)
    | cons hh tt => by_cases hac : a = c <;> simp [splitOnChar, h, hac]

theorem mem_splitOnChar_not_mem (c : Char) :
    ∀ (s : JSString) {t}, t ∈ splitOnChar c s → c ∉ t
  | [], t, h => by
    simp [splitOnChar] at h
    simp [h]
  | a :: as, t, h => by
    cases hsp : splitOnChar c as with
    | nil => exact absurd hsp (splitOnChar_ne_nil c as)
    | cons hh tt =>
      simp only [splitOnChar, hsp] at h
      by_cases hac : a = c
      · rw [if_pos hac] at h
        rcases List.mem_cons.mp h with rfl | h
        · simp
        · exact mem_splitOnChar_not_mem c as (hsp ▸ h)
      · rw [if_neg hac] at h
        rcases List.mem_cons.mp h with rfl | h
        · have hh_mem : c ∉ hh :=
            mem_splitOnChar_not_mem c as (hsp ▸ List.mem_cons_self hh tt)
          intro hc
          rcases List.mem_cons.mp hc with rfl | hc
          · exact hac rfl
          · exact hh_mem hc
        · exact mem_splitOnChar_not_mem c as (hsp ▸ List.mem_cons_of_mem hh h)

theorem splitOnChar_eq_single {c : Char} : ∀ {s : JSString}, c ∉ s → splitOnChar c s = [s]
  | [], _ => rfl
  | a :: as, h => by
    have hac : a ≠ c := fun e => h (e ▸ List.mem_cons_self a as)
    have hrec : splitOnChar c as = [as] :=
      splitOnChar_eq_single (fun hm => h (List.mem_cons_of_mem a hm))
    simp [splitOnChar, hrec, hac]

theorem splitOnChar_cons (c a : Char) (as : JSString) {hh tt}
    (h : splitOnChar c as = hh :: tt) :
    splitOnChar c (a :: as) = if a = c then [] :: hh :: tt else (a :: hh) :: tt := by
  simp only [splitOnChar]
  rw [h]

theorem splitOnChar_append_cons {c : Char} :
    ∀ {h : JSString}, c ∉ h →
      ∀ rest : JSString, splitOnChar c (h ++ c :: rest) = h :: splitOnChar c rest
  | [], _, rest => by
    cases hsp : splitOnChar c rest with
    | nil => exact absurd hsp (splitOnChar_ne_nil c rest)
    | cons a b => simp [splitOnChar, hsp]
  | x :: xs, hx, rest => by
    have hxc : x ≠ c := fun e => hx (e ▸ List.mem_cons_self x xs)
    have ih := splitOnChar_append_cons (fun hm => hx (List.mem_cons_of_mem x hm)) rest
    cases hsp : splitOnChar c (xs ++ c :: rest) with
    | nil => exact absurd hsp (splitOnChar_ne_nil c _)
    | cons hh tt =>
      rw [hsp] at ih
      injection ih with ih1 ih2
      rw [List.cons_append, splitOnChar_cons c x (xs ++ c :: rest) hsp, if_neg hxc, ih1, ih2]

theorem splitOnChar_append_left {c : Char} :
    ∀ {s : JSString}, c ∉ s → ∀ {x : JSString} {hh tt},
      splitOnChar c x = hh :: tt → splitOnChar c (s ++ x) = (s ++ hh) :: tt
  | [], _, x, hh, tt, hx => by simpa using hx
  | a :: as, h, x, hh, tt, hx => by
    have hac : a ≠ c := fun e => h (e ▸ List.mem_cons_self a as)
    have ih := splitOnChar_append_left (fun hm => h (List.mem_cons_of_mem a hm)) hx
    rw [List.cons_append, splitOnChar_cons c a (as ++ x) ih, if_neg hac, List.cons_append]

theorem splitOnChar_joinSep {c : Char} {sep : JSString} (hsep : c ∉ sep) :
    ∀ {h : JSString} {t : List JSString}, c ∉ h → (∀ u ∈ t, c ∉ u) →
      splitOnChar c (joinSep (c :: sep) (h :: t)) = h :: t.map (fun u => sep ++ u)
  | h, [], hh, _ => by simp [joinSep, splitOnChar_eq_single hh]
  | h, u :: t, hh, hts => by
    have ih := splitOnChar_joinSep hsep (hts u (List.mem_cons_self u t))
      (fun v hv => hts v (List.mem_cons_of_mem u hv))
    have hjoin : joinSep (c :: sep) (h :: u :: t) =
        h ++ c :: (sep ++ joinSep (c :: sep) (u :: t)) := by
      simp [joinSep]
    rw [hjoin, splitOnChar_append_cons hh, splitOnChar_append_left hsep ih]
    simp

theorem fieldTokens_spec {s : JSString} {t : JSString} (h : t ∈ fieldTokens s) :
    trimChars t = t ∧ t ≠ [] ∧ ',' ∉ t := by
  unfold fieldTokens at h
  have hmem := List.mem_filter.mp h
  obtain ⟨u, hu, rfl⟩ := List.mem_map.mp hmem.1
  refine ⟨trimChars_idem u, ?_, ?_⟩
  · intro hnil
    rw [hnil] at hmem
    simp at hmem
  · intro hc
    exact mem_splitOnChar_not_mem ',' s hu (mem_trimChars hc)

theorem sorted_fieldTokens_spec (s : JSString) :
    ∀ t ∈ List.insertionSort strLe (fieldTokens s), trimChars t = t ∧ t ≠ [] ∧ ',' ∉ t :=
  fun _ ht => fieldTokens_spec ((List.mem_insertionSort strLe).mp ht)

theorem fieldTokens_joinSep {sep : JSString} (hc : ',' ∉ sep)
    (hws : ∀ c ∈ sep, isJsSpace c = true) :
    ∀ {ts : List JSString}, (∀ t ∈ ts, trimChars t = t ∧ t ≠ [] ∧ ',' ∉ t) →
      fieldTokens (joinSep (',' :: sep) ts) = ts := by
  intro ts hts
  cases ts with
  | nil => rfl
  | cons h t =>
    have hh := hts h (List.mem_cons_self h t)
    have ht : ∀ u ∈ t, ',' ∉ u := fun u hu => (hts u (List.mem_cons_of_mem h hu)).2.2
    unfold fieldTokens
    rw [splitOnChar_joinSep hc hh.2.2 ht]
    have hmap : List.map trimChars (h :: List.map (fun u => sep ++ u) t) = h :: t := by
      rw [List.map_cons, hh.1, List.map_map]
      congr 1
      have : ∀ u ∈ t, (trimChars ∘ fun u => sep ++ u) u = id u := by
        intro u hu
        have := (hts u (List.mem_cons_of_mem h hu)).1
        simp [Function.comp, trimChars_ws_append hws, this]
      rw [List.map_congr_left this, List.map_id]
    rw [hmap]
    apply List.filter_eq_self.mpr
    intro a ha
    have := (hts a ha).2.1
    simpa [List.length_pos] using this

theorem DV_normalizeFields_eq (s : JSString) :
    DiffViewer.normalizeFields (some s) =
      some (joinSep [','] (List.insertionSort strLe (fieldTokens s))) := by
  by_cases hs : s = []
  · subst hs; rfl
  · simp [DiffViewer.normalizeFields, hs]

theorem PL_normalizeFields_eq (s : JSString) :
    PermissionsList.normalizeFields (some s) =
      some (joinSep [',', ' '] (List.insertionSort strLe (fieldTokens s))) := by
  by_cases hs : s = []
  · subst hs; rfl
  · simp [PermissionsList.normalizeFields, hs]

theorem normalize_core_idem {sep : JSString} (hc : ',' ∉ sep)
    (hws : ∀ c ∈ sep, isJsSpace c = true) (s : JSString) :
    joinSep (',' :: sep) (List.insertionSort strLe
      (fieldTokens (joinSep (',' :: sep) (List.insertionSort strLe (fieldTokens s))))) =
    joinSep (',' :: sep) (List.insertionSort strLe (fieldTokens s)) := by
  rw [fieldTokens_joinSep hc hws (sorted_fieldTokens_spec s),
    (List.sorted_insertionSort strLe (fieldTokens s)).insertionSort_eq]

/-- Claim C6: field-list normalization is idempotent.  For every input —
including `null` (`none`), the empty string, and lists with duplicate or
whitespace-padded entries — normalizing an already-normalized value returns it
unchanged, for both `normalizeFields` functions of the source
(DiffViewer.tsx joining with `","` and PermissionsList.tsx joining with `", "`). -/
theorem normalizeFields_idempotent (x : Option JSString) :
    DiffViewer.normalizeFields (DiffViewer.normalizeFields x) =
      DiffViewer.normalizeFields x ∧
    PermissionsList.normalizeFields (PermissionsList.normalizeFields x) =
      PermissionsList.normalizeFields x := by
  constructor
  · cases x with
    | none => rfl
    | some s =>
      rw [DV_normalizeFields_eq s, DV_normalizeFields_eq]
      exact congrArg some (normalize_core_idem (by simp) (by simp) s)
  · cases x with
    | none => rfl
    | some s =>
      rw [PL_normalizeFields_eq s, PL_normalizeFields_eq]
      refine congrArg some (normalize_core_idem ?_ ?_ s)
      · simp
      · intro c hcm
        simp at hcm
        simp [hcm, isJsSpace]

theorem insertionSort_congr_perm {l m : List JSString} (h : l.Perm m) :
    List.insertionSort strLe l = List.insertionSort strLe m :=
  List.eq_of_perm_of_sorted
    ((List.perm_insertionSort strLe l).trans (h.trans (List.perm_insertionSort strLe m).symm))
    (List.sorted_insertionSort strLe l) (List.sorted_insertionSort strLe m)

/-- Claim C5 (amended): two non-null field-list strings whose trimmed,
non-empty token lists are permutations of each other — the same names with the
same multiplicities, regardless of ordering and surrounding whitespace —
normalize to the same string, for both `normalizeFields` functions of the
source.  (The claim as stated, which also allows differing repetition counts,
is false: see the counterexample.) -/
theorem normalizeFields_perm_invariant (s t : JSString)
    (h : (fieldTokens s).Perm (fieldTokens t)) :
    DiffViewer.normalizeFields (some s) = DiffViewer.normalizeFields (some t) ∧
    PermissionsList.normalizeFields (some s) = PermissionsList.normalizeFields (some t) := by
  constructor
  · rw [DV_normalizeFields_eq, DV_normalizeFields_eq,
      insertionSort_congr_perm h]
  · rw [PL_normalizeFields_eq, PL_normalizeFields_eq,
      insertionSort_congr_perm h]

/-- Witness for claim C5 (amended): `"b, a"` and `"a,b"` have permuted token
lists and normalize identically. -/
theorem normalizeFields_perm_invariant_witness :
    (fieldTokens (js "b, a")).Perm (fieldTokens (js "a,b")) ∧
    (DiffViewer.normalizeFields (some (js "b, a")) =
        DiffViewer.normalizeFields (some (js "a,b")) ∧
      PermissionsList.normalizeFields (some (js "b, a")) =
        PermissionsList.normalizeFields (some (js "a,b"))) := by
  have h : (fieldTokens (js "b, a")).Perm (fieldTokens (js "a,b")) := by
    have h1 : fieldTokens (js "b, a") = [js "b", js "a"] := by decide
    have h2 : fieldTokens (js "a,b") = [js "a", js "b"] := by decide
    rw [h1, h2]
    exact List.Perm.swap (js "a") (js "b") []
  exact ⟨h, normalizeFields_perm_invariant _ _ h⟩

/-- Counterexample to claim C5 as stated: `"a,a"` and `"a"` denote the same
set of field names (repetition ignored), yet they normalize to different
strings — `normalizeFields` never removes duplicate tokens. -/
theorem normalizeFields_not_set_invariant :
    ((fieldTokens (js "a,a")).toFinset = (fieldTokens (js "a")).toFinset) ∧
    DiffViewer.normalizeFields (some (js "a,a")) ≠
      DiffViewer.normalizeFields (some (js "a")) ∧
    PermissionsList.normalizeFields (some (js "a,a")) ≠
      PermissionsList.normalizeFields (some (js "a")) := by
  refine ⟨?_, by decide, by decide⟩
  decide

/-- Modelled from the spec: one access-control record of
`directus_permissions` joined with its policy name (spec §3).
`lib/permissions.ts` is not under src/; the record shape follows the schema in
src/unnamed/part_003 and the field uses in DiffViewer.tsx / PermissionsList.tsx. -/
structure Permission where
  id : Nat
  policy : JSString
  policy_name : JSString
  collection : JSString
  action : JSString
  permissions : Option JSString
  validation : Option JSString
  presets : Option JSString
  fields : Option JSString
deriving DecidableEq

/-- The four reconciliation outcomes of a composite key. -/
inductive DiffStatus where
  | added
  | removed
  | modified
  | identical
deriving DecidableEq

/-- Modelled from the spec: one reconciliation outcome (`PermissionDiff` of
lib/permissions.ts, not under src/; field names follow their uses in
DiffViewer.tsx, PermissionsList.tsx and the api routes). -/
structure PermissionDiff where
  key : JSString
  policy : JSString
  policy_name : JSString
  collection : JSString
  action : JSString
  sourcePermission : Option Permission
  targetPermission : Option Permission
  status : DiffStatus
deriving DecidableEq

/-- Modelled from the spec: composite key `collection + ":" + action + ":" +
policy` (§3; src/unnamed/part_003). -/
def computeKey (p : Permission) : JSString :=
  p.collection ++ [':'] ++ p.action ++ [':'] ++ p.policy

/-- Modelled from the spec: `normalizeFieldList` (§4.1) — `null` unchanged,
otherwise split on comma, trim, drop empty tokens, sort, rejoin. -/
def normalizeFieldList (raw : Option JSString) : Option JSString :=
  match raw with
  | none => none
  | some s => some (joinSep [','] (List.insertionSort strLe (fieldTokens s)))

/-- Modelled from the spec: §4.2 step 4 — equality of normalized content:
payload, validationRule and defaultsRule compared as opaque strings, plus the
normalized field list. -/
def contentEq (a b : Permission) : Bool :=
  decide (a.permissions = b.permissions) && decide (a.validation = b.validation) &&
    decide (a.presets = b.presets) &&
    decide (normalizeFieldList a.fields = normalizeFieldList b.fields)

/-- The group (policy) identifiers occurring in a record set. -/
def policiesOf (perms : List Permission) : List JSString := perms.map (·.policy)

/-- Modelled from the spec: §4.2 step 2 — policy pre-filter: keep only records
whose policy also occurs on the other side. -/
def filterCommon (perms other : List Permission) : List Permission :=
  perms.filter (fun p => decide (p.policy ∈ policiesOf other))

/-- Modelled from the spec: §4.2 step 3 — the key-indexed map with
last-write-wins on duplicate keys: lookup returns the last record whose
composite key matches. -/
def lookupByKey (perms : List Permission) (k : JSString) : Option Permission :=
  perms.reverse.find? (fun q => decide (computeKey q = k))

/-- Modelled from the spec: §4.2 step 4 — the union of both sides' composite
key sets, each key once. -/
def unionKeys (srcF tgtF : List Permission) : List JSString :=
  (srcF.map computeKey ++ tgtF.map computeKey).dedup

/-- Modelled from the spec: §4.2 step 4 — classification of one composite key
from the records found on each side. -/
def classifyKey (k : JSString) (sp tp : Option Permission) : Option PermissionDiff :=
  match sp, tp with
  | some s, none =>
    some ⟨k, s.policy, s.policy_name, s.collection, s.action, some s, none, .added⟩
  | none, some t =>
    some ⟨k, t.policy, t.policy_name, t.collection, t.action, none, some t, .removed⟩
  | some s, some t =>
    some ⟨k, s.policy, s.policy_name, s.collection, s.action, some s, some t,
      if contentEq s t then .identical else .modified⟩
  | none, none => none

/-- Modelled from the spec: §4.2 step 5 — fixed priority of the four CRUD
operations, anything else after all of them. -/
def actionPriority (a : JSString) : Nat :=
  if a = js "read" then 0
  else if a = js "create" then 1
  else if a = js "update" then 2
  else if a = js "delete" then 3
  else 4

/-- Modelled from the spec: §4.2 step 5 — sort by `groupLabel` (policy name),
then `resourceName` (collection), then action priority, ties broken
lexicographically by operation name. -/
def diffLE (x y : PermissionDiff) : Prop :=
  strLtB x.policy_name y.policy_name = true ∨
  (x.policy_name = y.policy_name ∧
    (strLtB x.collection y.collection = true ∨
      (x.collection = y.collection ∧
        (actionPriority x.action < actionPriority y.action ∨
          (actionPriority x.action = actionPriority y.action ∧
            strLeB x.action y.action = true)))))

instance : DecidableRel diffLE := fun x y => by
  unfold diffLE
  infer_instance

/-- Modelled from the spec: §4.2 — the full `comparePermissions` pipeline:
policy pre-filter, key indexing, classification over the key union, then the
deterministic sort. -/
def comparePermissions (src tgt : List Permission) : List PermissionDiff :=
  List.insertionSort diffLE
    ((unionKeys (filterCommon src tgt) (filterCommon tgt src)).filterMap
      (fun k => classifyKey k (lookupByKey (filterCommon src tgt) k)
        (lookupByKey (filterCommon tgt src) k)))

theorem diffLE_trans {x y z : PermissionDiff} (h1 : diffLE x y) (h2 : diffLE y z) :
    diffLE x z := by
  unfold diffLE at h1 h2 ⊢
  rcases h1 with h1 | ⟨e1, h1⟩
  · rcases h2 with h2 | ⟨e2, h2⟩
    · exact Or.inl (strLtB_trans h1 h2)
    · exact Or.inl (by rw [← e2]; exact h1)
  · rcases h2 with h2 | ⟨e2, h2⟩
    · exact Or.inl (by rw [e1]; exact h2)
    · refine Or.inr ⟨e1.trans e2, ?_⟩
      rcases h1 with h1 | ⟨f1, h1⟩
      · rcases h2 with h2 | ⟨f2, h2⟩
        · exact Or.inl (strLtB_trans h1 h2)
        · exact Or.inl (by rw [← f2]; exact h1)
      · rcases h2 with h2 | ⟨f2, h2⟩
        · exact Or.inl (by rw [f1]; exact h2)
        · refine Or.inr ⟨f1.trans f2, ?_⟩
          rcases h1 with h1 | ⟨g1, h1⟩
          · rcases h2 with h2 | ⟨g2, h2⟩
            · exact Or.inl (h1.trans h2)
            · exact Or.inl (by rw [← g2]; exact h1)
          · rcases h2 with h2 | ⟨g2, h2⟩
            · exact Or.inl (by rw [g1]; exact h2)
            · exact Or.inr ⟨g1.trans g2, strLeB_trans h1 h2⟩

theorem diffLE_total (x y : PermissionDiff) : diffLE x y ∨ diffLE y x := by
  unfold diffLE
  by_cases e : x.policy_name = y.policy_name
  · by_cases f : x.collection = y.collection
    · rcases Nat.lt_trichotomy (actionPriority x.action) (actionPriority y.action) with
        h | h | h
      · exact Or.inl (Or.inr ⟨e, Or.inr ⟨f, Or.inl h⟩⟩)
      · rcases strLeB_total x.action y.action with hs | hs
        · exact Or.inl (Or.inr ⟨e, Or.inr ⟨f, Or.inr ⟨h, hs⟩⟩⟩)
        · exact Or.inr (Or.inr ⟨e.symm, Or.inr ⟨f.symm, Or.inr ⟨h.symm, hs⟩⟩⟩)
      · exact Or.inr (Or.inr ⟨e.symm, Or.inr ⟨f.symm, Or.inl h⟩⟩)
    · rcases strLtB_connex f with h | h
      · exact Or.inl (Or.inr ⟨e, Or.inl h⟩)
      · exact Or.inr (Or.inr ⟨e.symm, Or.inl h⟩)
  · rcases strLtB_connex e with h | h
    · exact Or.inl (Or.inl h)
    · exact Or.inr (Or.inl h)

instance : IsTrans PermissionDiff diffLE := ⟨fun _ _ _ => diffLE_trans⟩

instance : IsTotal PermissionDiff diffLE := ⟨diffLE_total⟩

theorem lookupByKey_isSome {perms : List Permission} {k : JSString} :
    (lookupByKey perms k).isSome = true ↔ k ∈ perms.map computeKey := by
  unfold lookupByKey
  rw [List.find?_isSome]
  constructor
  · rintro ⟨p, hp, hpk⟩
    exact List.mem_map.mpr ⟨p, List.mem_reverse.mp hp, of_decide_eq_true hpk⟩
  · intro hk
    obtain ⟨p, hp, hpk⟩ := List.mem_map.mp hk
    exact ⟨p, List.mem_reverse.mpr hp, decide_eq_true hpk⟩

theorem lookupByKey_mem {perms : List Permission} {k : JSString} {p : Permission}
    (h : lookupByKey perms k = some p) : p ∈ perms ∧ computeKey p = k := by
  unfold lookupByKey at h
  have h1 := List.mem_of_find?_eq_some h
  have h2 := List.find?_some h
  exact ⟨List.mem_reverse.mp h1, of_decide_eq_true h2⟩

theorem classifyKey_key : ∀ {k : JSString} {sp tp : Option Permission} {d : PermissionDiff},
    classifyKey k sp tp = some d → d.key = k
  | _, some _, none, _, h => by injection h with h; subst h; rfl
  | _, none, some _, _, h => by injection h with h; subst h; rfl
  | _, some _, some _, _, h => by injection h with h; subst h; rfl
  | _, none, none, _, h => Option.noConfusion h

theorem filterMap_classify_keys (srcF tgtF : List Permission) :
    ∀ U : List JSString,
      (∀ k ∈ U, k ∈ srcF.map computeKey ∨ k ∈ tgtF.map computeKey) →
      ((U.filterMap
          (fun k => classifyKey k (lookupByKey srcF k) (lookupByKey tgtF k))).map
        (fun d => d.key)) = U
  | [], _ => rfl
  | k :: U, h => by
    have hk := h k (List.mem_cons_self k U)
    have ih := filterMap_classify_keys srcF tgtF U
      (fun x hx => h x (List.mem_cons_of_mem k hx))
    have hsome : ∃ d, classifyKey k (lookupByKey srcF k) (lookupByKey tgtF k) = some d := by
      cases hs : lookupByKey srcF k with
      | some s => cases ht : lookupByKey tgtF k <;> exact ⟨_, rfl⟩
      | none =>
        cases ht : lookupByKey tgtF k with
        | some t => exact ⟨_, rfl⟩
        | none =>
          rcases hk with hk | hk
          · have := lookupByKey_isSome.mpr hk
            rw [hs] at this
            simp at this
          · have := lookupByKey_isSome.mpr hk
            rw [ht] at this
            simp at this
    obtain ⟨d, hd⟩ := hsome
    rw [List.filterMap_cons, hd, List.map_cons, classifyKey_key hd, ih]

/-- Claim C2: the key set of the diff list returned by compare equals exactly
the union of the composite keys of the two policy-filtered record sets — no
key is dropped, and no key occurs twice. -/
theorem compare_keys_complete (src tgt : List Permission) :
    ((comparePermissions src tgt).map (fun d => d.key)).Nodup ∧
    ∀ k : JSString,
      k ∈ (comparePermissions src tgt).map (fun d => d.key) ↔
        (k ∈ (filterCommon src tgt).map computeKey ∨
          k ∈ (filterCommon tgt src).map computeKey) := by
  have hU : ∀ k ∈ unionKeys (filterCommon src tgt) (filterCommon tgt src),
      k ∈ (filterCommon src tgt).map computeKey ∨
        k ∈ (filterCommon tgt src).map computeKey := by
    intro k hk
    unfold unionKeys at hk
    exact List.mem_append.mp (List.mem_dedup.mp hk)
  have hperm : ((comparePermissions src tgt).map (fun d => d.key)).Perm
      (unionKeys (filterCommon src tgt) (filterCommon tgt src)) := by
    unfold comparePermissions
    have h1 := (List.perm_insertionSort diffLE
      ((unionKeys (filterCommon src tgt) (filterCommon tgt src)).filterMap
        (fun k => classifyKey k (lookupByKey (filterCommon src tgt) k)
          (lookupByKey (filterCommon tgt src) k)))).map (fun d => d.key)
    rwa [filterMap_classify_keys (filterCommon src tgt) (filterCommon tgt src)
      (unionKeys (filterCommon src tgt) (filterCommon tgt src)) hU] at h1
  constructor
  · exact hperm.nodup_iff.mpr (List.nodup_dedup _)
  · intro k
    rw [hperm.mem_iff]
    unfold unionKeys
    rw [List.mem_dedup, List.mem_append]

/-- Claim C1: every diff produced by compare is classified from the two
key-indexed lookups of the filtered record sets: `added` exactly when the key
is found only on the source side, `removed` exactly when only on the target
side, and when found on both, `identical` exactly when the normalized content
(payload, validationRule, defaultsRule, normalized field list) is equal and
`modified` exactly otherwise; a key on neither side never produces a diff, so
exactly one status holds and it depends only on the normalized content. -/
theorem compare_status_classification (src tgt : List Permission)
    (d : PermissionDiff) (hd : d ∈ comparePermissions src tgt) :
    match lookupByKey (filterCommon src tgt) d.key,
        lookupByKey (filterCommon tgt src) d.key with
    | some s, none => d.status = DiffStatus.added ∧
        d.sourcePermission = some s ∧ d.targetPermission = none
    | none, some t => d.status = DiffStatus.removed ∧
        d.sourcePermission = none ∧ d.targetPermission = some t
    | some s, some t =>
        (d.status = DiffStatus.identical ↔ contentEq s t = true) ∧
        (d.status = DiffStatus.modified ↔ contentEq s t = false) ∧
        d.sourcePermission = some s ∧ d.targetPermission = some t
    | none, none => False := by
  unfold comparePermissions at hd
  have hd' := (List.mem_insertionSort diffLE).mp hd
  obtain ⟨k, hk, hck⟩ := List.mem_filterMap.mp hd'
  have hkey : d.key = k := classifyKey_key hck
  rw [hkey]
  cases hs : lookupByKey (filterCommon src tgt) k with
  | none =>
    cases ht : lookupByKey (filterCommon tgt src) k with
    | none =>
      rw [hs, ht] at hck
      exact Option.noConfusion hck
    | some t =>
      rw [hs, ht] at hck
      injection hck with hck
      exact ⟨by rw [← hck], by rw [← hck], by rw [← hck]⟩
  | some s =>
    cases ht : lookupByKey (filterCommon tgt src) k with
    | none =>
      rw [hs, ht] at hck
      injection hck with hck
      exact ⟨by rw [← hck], by rw [← hck], by rw [← hck]⟩
    | some t =>
      rw [hs, ht] at hck
      injection hck with hck
      by_cases hc : contentEq s t = true
      · rw [← hck]
        simp [hc]
      · rw [← hck]
        simp only [Bool.not_eq_true] at hc
        simp [hc]

/-- Claim C3: a record whose group (policy) identifier is present on only one
side never contributes a diff — the policy of every diff in compare's output
occurs in the policy sets of both input record sets. -/
theorem compare_policy_prefilter (src tgt : List Permission)
    (d : PermissionDiff) (hd : d ∈ comparePermissions src tgt) :
    d.policy ∈ policiesOf src ∧ d.policy ∈ policiesOf tgt := by
  unfold comparePermissions at hd
  have hd' := (List.mem_insertionSort diffLE).mp hd
  obtain ⟨k, hk, hck⟩ := List.mem_filterMap.mp hd'
  have hsrc : ∀ {p : Permission}, p ∈ filterCommon src tgt →
      p.policy ∈ policiesOf src ∧ p.policy ∈ policiesOf tgt := by
    intro p hp
    have hm := List.mem_filter.mp hp
    exact ⟨List.mem_map.mpr ⟨p, hm.1, rfl⟩, of_decide_eq_true hm.2⟩
  have htgt : ∀ {p : Permission}, p ∈ filterCommon tgt src →
      p.policy ∈ policiesOf src ∧ p.policy ∈ policiesOf tgt := by
    intro p hp
    have hm := List.mem_filter.mp hp
    exact ⟨of_decide_eq_true hm.2, List.mem_map.mpr ⟨p, hm.1, rfl⟩⟩
  cases hs : lookupByKey (filterCommon src tgt) k with
  | none =>
    cases ht : lookupByKey (filterCommon tgt src) k with
    | none =>
      rw [hs, ht] at hck
      exact Option.noConfusion hck
    | some t =>
      rw [hs, ht] at hck
      injection hck with hck
      have hpol : d.policy = t.policy := by rw [← hck]
      rw [hpol]
      exact htgt (lookupByKey_mem ht).1
  | some s =>
    cases ht : lookupByKey (filterCommon tgt src) k with
    | none =>
      rw [hs, ht] at hck
      injection hck with hck
      have hpol : d.policy = s.policy := by rw [← hck]
      rw [hpol]
      exact hsrc (lookupByKey_mem hs).1
    | some t =>
      rw [hs, ht] at hck
      injection hck with hck
      have hpol : d.policy = s.policy := by rw [← hck]
      rw [hpol]
      exact hsrc (lookupByKey_mem hs).1

/-- A concrete example record: the shared policy `p1` (label `Policy One`) on
collection `articles`. -/
def exPerm (i : Nat) (action : JSString) (fields : Option JSString) : Permission :=
  ⟨i, js "p1", js "Policy One", js "articles", action, some (js "permA"), none, none, fields⟩

/-- Example source side: the four operations in the order update, read,
delete, create. -/
def exSourcePerms : List Permission :=
  [exPerm 1 (js "update") none, exPerm 2 (js "read") (some (js "title, body")),
   exPerm 3 (js "delete") none, exPerm 4 (js "create") none]

/-- Example target side: only the read record, with the same content but the
field list written in a different order. -/
def exTargetPerms : List Permission :=
  [exPerm 11 (js "read") (some (js "body,title"))]

/-- The diff compare produces for the read key of the example: identical,
because normalization absorbs field order and whitespace. -/
def exDiffRead : PermissionDiff :=
  ⟨computeKey (exPerm 2 (js "read") (some (js "title, body"))), js "p1", js "Policy One",
   js "articles", js "read", some (exPerm 2 (js "read") (some (js "title, body"))),
   some (exPerm 11 (js "read") (some (js "body,title"))), DiffStatus.identical⟩

/-- Claim C4: compare's diff list is sorted by the spec order — policy label,
then collection, then the fixed action priority [read, create, update, delete]
with unknown operations last and lexicographic tie-break — and on the concrete
input whose source operations arrive as [update, read, delete, create] the
output actions come out as read, create, update, delete. -/
theorem compare_sort_order :
    (∀ src tgt : List Permission, List.Sorted diffLE (comparePermissions src tgt)) ∧
    (comparePermissions exSourcePerms exTargetPerms).map (fun d => d.action) =
      [js "read", js "create", js "update", js "delete"] := by
  constructor
  · intro src tgt
    exact List.sorted_insertionSort diffLE _
  · decide

/-- Witness for claim C1: the read diff of the concrete example is in
compare's output, both lookups find a record, and its status is `identical`
exactly because the normalized contents agree. -/
theorem compare_status_classification_witness :
    exDiffRead ∈ comparePermissions exSourcePerms exTargetPerms ∧
    (match lookupByKey (filterCommon exSourcePerms exTargetPerms) exDiffRead.key,
        lookupByKey (filterCommon exTargetPerms exSourcePerms) exDiffRead.key with
    | some s, none => exDiffRead.status = DiffStatus.added ∧
        exDiffRead.sourcePermission = some s ∧ exDiffRead.targetPermission = none
    | none, some t => exDiffRead.status = DiffStatus.removed ∧
        exDiffRead.sourcePermission = none ∧ exDiffRead.targetPermission = some t
    | some s, some t =>
        (exDiffRead.status = DiffStatus.identical ↔ contentEq s t = true) ∧
        (exDiffRead.status = DiffStatus.modified ↔ contentEq s t = false) ∧
        exDiffRead.sourcePermission = some s ∧ exDiffRead.targetPermission = some t
    | none, none => False) :=
  ⟨by decide, compare_status_classification exSourcePerms exTargetPerms exDiffRead (by decide)⟩

/-- Witness for claim C3: the policy of the example read diff occurs on both
sides. -/
theorem compare_policy_prefilter_witness :
    exDiffRead ∈ comparePermissions exSourcePerms exTargetPerms ∧
    (exDiffRead.policy ∈ policiesOf exSourcePerms ∧
      exDiffRead.policy ∈ policiesOf exTargetPerms) :=
  ⟨by decide, compare_policy_prefilter exSourcePerms exTargetPerms exDiffRead (by decide)⟩

/-- One per-item result pushed by the sync endpoint (src/pages/api/sync.ts,
lines 35–46). -/
structure SyncItemResult where
  key : JSString
  success : Bool
  message : JSString
deriving DecidableEq

/-- The tally of src/pages/api/sync.ts (lines 56–60). -/
structure SyncSummary where
  total : Nat
  successful : Nat
  failed : Nat
deriving DecidableEq

/-- The response body built by the sync handler. -/
structure SyncResponse where
  results : List SyncItemResult
  summary : SyncSummary
deriving DecidableEq

/-- Success message of src/pages/api/sync.ts line 38. -/
def successMessage (d : PermissionDiff) : JSString :=
  js "Successfully synced " ++ d.collection ++ [':'] ++ d.action ++
    js " for policy " ++ d.policy_name

/-- Failure message of src/pages/api/sync.ts line 44. -/
def failureMessage (d : PermissionDiff) (e : JSString) : JSString :=
  js "Failed to sync " ++ d.collection ++ [':'] ++ d.action ++
    js " for policy " ++ d.policy_name ++ js ": " ++ e

/-- The per-diff body of the handler loop of src/pages/api/sync.ts (lines
32–47): `comparator.syncPermission` is abstracted as `sync`, which may fail
for any reason; a failure is caught and recorded as this item's failure. -/
def syncItemResult (sync : PermissionDiff → Except JSString Unit)
    (diff : PermissionDiff) : SyncItemResult :=
  match sync diff with
  | Except.ok _ => ⟨diff.key, true, successMessage diff⟩
  | Except.error e => ⟨diff.key, false, failureMessage diff e⟩

/-- The handler of src/pages/api/sync.ts (lines 30–61): iterate the diffs in
caller order, record one result each, then tally successes and failures. -/
def syncHandler (sync : PermissionDiff → Except JSString Unit)
    (diffs : List PermissionDiff) : SyncResponse :=
  ⟨diffs.map (syncItemResult sync),
   ⟨(diffs.map (syncItemResult sync)).length,
    ((diffs.map (syncItemResult sync)).filter (fun r => r.success)).length,
    ((diffs.map (syncItemResult sync)).filter (fun r => !r.success)).length⟩⟩

theorem length_filter_bool_split {α : Type} (p : α → Bool) (l : List α) :
    (l.filter p).length + (l.filter (fun a => !p a)).length = l.length := by
  induction l with
  | nil => rfl
  | cons a as ih =>
    cases h : p a <;> simp [List.filter_cons, h] <;> omega

/-- Claim C7: apply returns exactly one per-item result for each input diff,
in input order; each item's outcome depends only on its own sync call (a
failure is recorded as that item's failure without aborting the rest); and
the summary counts the input size and the succeeded and failed items. -/
theorem sync_per_item_isolation (sync : PermissionDiff → Except JSString Unit)
    (diffs : List PermissionDiff) :
    (syncHandler sync diffs).results = diffs.map (syncItemResult sync) ∧
    ((syncHandler sync diffs).results.map (fun r => r.key)) =
      diffs.map (fun d => d.key) ∧
    (∀ d, (syncItemResult sync d).key = d.key) ∧
    (∀ d, (syncItemResult sync d).success = (sync d).isOk) ∧
    (syncHandler sync diffs).summary.total = diffs.length ∧
    (syncHandler sync diffs).summary.successful =
      (diffs.filter (fun d => (sync d).isOk)).length ∧
    (syncHandler sync diffs).summary.failed =
      (diffs.filter (fun d => !(sync d).isOk)).length ∧
    (syncHandler sync diffs).summary.successful +
        (syncHandler sync diffs).summary.failed = diffs.length := by
  have hkey : ∀ d, (syncItemResult sync d).key = d.key := by
    intro d
    unfold syncItemResult
    cases sync d <;> rfl
  have hsucc : ∀ d, (syncItemResult sync d).success = (sync d).isOk := by
    intro d
    unfold syncItemResult
    cases sync d <;> rfl
  have hfilter : ((diffs.map (syncItemResult sync)).filter (fun r => r.success)).length =
      (diffs.filter (fun d => (sync d).isOk)).length := by
    rw [List.filter_map, List.length_map]
    congr 1
    exact List.filter_congr (fun d _ => hsucc d)
  have hfilterNot :
      ((diffs.map (syncItemResult sync)).filter (fun r => !r.success)).length =
      (diffs.filter (fun d => !(sync d).isOk)).length := by
    rw [List.filter_map, List.length_map]
    congr 1
    refine List.filter_congr (fun d _ => ?_)
    simp [Function.comp, hsucc d]
  refine ⟨rfl, ?_, hkey, hsucc, by simp [syncHandler], hfilter, hfilterNot, ?_⟩
  · show List.map (fun r => r.key) (diffs.map (syncItemResult sync)) =
      diffs.map (fun d => d.key)
    rw [List.map_map]
    exact List.map_congr_left (fun d _ => hkey d)
  · show ((diffs.map (syncItemResult sync)).filter (fun r => r.success)).length +
      ((diffs.map (syncItemResult sync)).filter (fun r => !r.success)).length = diffs.length
    rw [length_filter_bool_split]
    exact List.length_map diffs (syncItemResult sync)

/-- A write statement issued against the effective target side. -/
inductive WriteOp where
  | insertPerm (p : Permission)
  | updatePerm (rowId : Nat) (content : Permission)
  | deletePerm (rowId : Nat)
deriving DecidableEq

/-- Modelled from the spec: `PermissionComparator.syncPermission` of
lib/permissions.ts (not under src/), per §4.3 and Scenario 4: an `identical`
diff is rejected as a precondition violation; otherwise the flip toggle picks
which half of the diff plays which role, and the write (with re-normalized
field list) is delegated to `exec`, which may itself fail. -/
def syncPermission (exec : WriteOp → Except JSString Unit) (flipped : Bool)
    (d : PermissionDiff) : Except JSString Unit :=
  if d.status = DiffStatus.identical then
    Except.error (js "PreconditionViolation: identical permission needs no sync")
  else if flipped then
    match d.targetPermission, d.sourcePermission with
    | none, some sp => exec (WriteOp.deletePerm sp.id)
    | some tp, none =>
        exec (WriteOp.insertPerm { tp with fields := normalizeFieldList tp.fields })
    | some tp, some sp =>
        exec (WriteOp.updatePerm sp.id { tp with fields := normalizeFieldList tp.fields })
    | none, none => Except.error (js "PreconditionViolation: diff has no record")
  else
    match d.sourcePermission, d.targetPermission with
    | none, some tp => exec (WriteOp.deletePerm tp.id)
    | some sp, none =>
        exec (WriteOp.insertPerm { sp with fields := normalizeFieldList sp.fields })
    | some sp, some tp =>
        exec (WriteOp.updatePerm tp.id { sp with fields := normalizeFieldList sp.fields })
    | none, none => Except.error (js "PreconditionViolation: diff has no record")

/-- Claim C8: when apply runs on a batch containing an `identical` diff, that
diff is rejected with a precondition violation recorded as its per-item
failure, and every other diff of the batch is still processed (one result per
input diff). -/
theorem sync_identical_rejected (exec : WriteOp → Except JSString Unit) (flipped : Bool)
    (diffs : List PermissionDiff) (d : PermissionDiff)
    (_hd : d ∈ diffs) (hid : d.status = DiffStatus.identical) :
    (syncHandler (syncPermission exec flipped) diffs).results.length = diffs.length ∧
    (syncHandler (syncPermission exec flipped) diffs).results =
      diffs.map (syncItemResult (syncPermission exec flipped)) ∧
    syncItemResult (syncPermission exec flipped) d =
      ⟨d.key, false,
        failureMessage d (js "PreconditionViolation: identical permission needs no sync")⟩ := by
  refine ⟨by simp [syncHandler], rfl, ?_⟩
  unfold syncItemResult syncPermission
  rw [if_pos hid]

/-- An `added` diff for the update key of the example, used in the C8 witness
batch. -/
def exDiffUpdate : PermissionDiff :=
  ⟨computeKey (exPerm 1 (js "update") none), js "p1", js "Policy One",
   js "articles", js "update", some (exPerm 1 (js "update") none), none,
   DiffStatus.added⟩

/-- A two-item sync batch whose first diff is `identical`. -/
def exSyncBatch : List PermissionDiff := [exDiffRead, exDiffUpdate]

/-- An executor whose writes always succeed. -/
def exOkExec : WriteOp → Except JSString Unit := fun _ => Except.ok ()

/-- Witness for claim C8: on the concrete two-item batch the identical diff is
recorded as a precondition failure while both items get a result. -/
theorem sync_identical_rejected_witness :
    (exDiffRead ∈ exSyncBatch ∧ exDiffRead.status = DiffStatus.identical) ∧
    ((syncHandler (syncPermission exOkExec false) exSyncBatch).results.length =
        exSyncBatch.length ∧
      (syncHandler (syncPermission exOkExec false) exSyncBatch).results =
        exSyncBatch.map (syncItemResult (syncPermission exOkExec false)) ∧
      syncItemResult (syncPermission exOkExec false) exDiffRead =
        ⟨exDiffRead.key, false, failureMessage exDiffRead
          (js "PreconditionViolation: identical permission needs no sync")⟩) :=
  ⟨⟨by decide, by decide⟩,
    sync_identical_rejected exOkExec false exSyncBatch exDiffRead (by decide) (by decide)⟩

/-- The comparison summary object of src/pages/api/compare.ts (lines 28–34). -/
structure ComparisonSummary where
  total : Nat
  added : Nat
  removed : Nat
  modified : Nat
  identical : Nat
deriving DecidableEq

/-- The summary computed by the compare handler (src/pages/api/compare.ts
lines 28–34): the list length and one status-filtered count per status. -/
def compareSummary (diffs : List PermissionDiff) : ComparisonSummary :=
  ⟨diffs.length,
   (diffs.filter (fun d => decide (d.status = DiffStatus.added))).length,
   (diffs.filter (fun d => decide (d.status = DiffStatus.removed))).length,
   (diffs.filter (fun d => decide (d.status = DiffStatus.modified))).length,
   (diffs.filter (fun d => decide (d.status = DiffStatus.identical))).length⟩

/-- Claim C9: the summary returned alongside compare's diff list is a pure
count over the diffs' status field — total is the list length, each status
count is the number of diffs with that status, and the four status counts sum
to the total. -/
theorem compare_summary_counts (diffs : List PermissionDiff) :
    (compareSummary diffs).total = diffs.length ∧
    (compareSummary diffs).added =
      (diffs.filter (fun d => decide (d.status = DiffStatus.added))).length ∧
    (compareSummary diffs).removed =
      (diffs.filter (fun d => decide (d.status = DiffStatus.removed))).length ∧
    (compareSummary diffs).modified =
      (diffs.filter (fun d => decide (d.status = DiffStatus.modified))).length ∧
    (compareSummary diffs).identical =
      (diffs.filter (fun d => decide (d.status = DiffStatus.identical))).length ∧
    (compareSummary diffs).added + (compareSummary diffs).removed +
        (compareSummary diffs).modified + (compareSummary diffs).identical =
      (compareSummary diffs).total := by
  refine ⟨rfl, rfl, rfl, rfl, rfl, ?_⟩
  unfold compareSummary
  induction diffs with
  | nil => rfl
  | cons d ds ih =>
    simp only at ih
    cases hstat : d.status <;> simp [List.filter_cons, hstat] <;> omega

/-- `getSourceDb` of src/lib/database.ts (lines 223–225); the two module-level
connection handles are passed in as `sourceDb` and `targetDb`. -/
def getSourceDb {α : Type} (sourceDb targetDb : α) (flipped : Bool) : α :=
  if flipped then targetDb else sourceDb

/-- `getTargetDb` of src/lib/database.ts (lines 227–229). -/
def getTargetDb {α : Type} (sourceDb targetDb : α) (flipped : Bool) : α :=
  if flipped then sourceDb else targetDb

/-- Claim C10: flip resolution is an exact swap of the two fixed connections:
for every flag value, `getSourceDb flipped` is `getTargetDb (not flipped)` and
vice versa, and the unordered pair of connections in use is always the fixed
pair. -/
theorem flip_exact_swap {α : Type} (sourceDb targetDb : α) (flipped : Bool) :
    getSourceDb sourceDb targetDb flipped = getTargetDb sourceDb targetDb (!flipped) ∧
    getTargetDb sourceDb targetDb flipped = getSourceDb sourceDb targetDb (!flipped) ∧
    ({getSourceDb sourceDb targetDb flipped, getTargetDb sourceDb targetDb flipped} :
        Multiset α) = {sourceDb, targetDb} := by
  cases flipped
  · exact ⟨rfl, rfl, rfl⟩
  · exact ⟨rfl, rfl, Multiset.pair_comm targetDb sourceDb⟩
